import Mathlib

/-!
Verification development for the truffleHog secret scanner
(src/truffleHog/truffleHog.py).

Shallow embedding conventions:
* Python strings are modelled as `List Char` (`Str` below); Python string
  literals are written as Lean string literals converted with `.toList`.
* Python non-negative integer counters are modelled as `Nat`.
* Shannon entropy is computed with Python floats in the source; it is
  modelled here over the reals `ℝ`, the standard idealisation.
* Compiled regular expressions are opaque to the scanner (only their
  `findall` method is used); they are modelled as an abstract structure
  carrying a `findall` function.
* The MD5 digest used for the dedup key is modelled as the identity on the
  digested string: the specification itself assumes the digest is
  collision-free, and `str` of a GitPython commit is its hex SHA while
  `str(None) = "None"`.
* File-system, console and git I/O (cloning, printing, result files,
  actual diff computation) are external collaborators; a repository is
  modelled as its branch list plus diff oracles, and the result files
  written by `handle_results` are modelled by the findings themselves.
-/

/-- Python strings are modelled as lists of characters. -/
abbrev Str := List Char

/-- Source line 78: the Base64-like alphabet (65 characters). -/
def BASE64_CHARS : Str :=
  "ABCDEFGHIJKLMNOPQRSTUVWXYZabcdefghijklmnopqrstuvwxyz0123456789+/=".toList

/-- Source line 79: the hexadecimal alphabet (22 characters). -/
def HEX_CHARS : Str := "1234567890abcdefABCDEF".toList

/-- Loop body of `get_strings_of_set` (source lines 102-117).  The state is
the remaining input, the run length counter `count`, the current run
`letters` and the accumulated output `strings`; the invariant
`count = letters.length` mirrors the two synchronised Python variables. -/
def gsosLoop (char_set : Str) (threshold : Nat) :
    Str → Nat → Str → List Str → List Str
  | [], count, letters, strings =>
    if count > threshold then strings ++ [letters] else strings
  | c :: rest, count, letters, strings =>
    if c ∈ char_set then
      gsosLoop char_set threshold rest (count + 1) (letters ++ [c]) strings
    else if count > threshold then
      gsosLoop char_set threshold rest 0 [] (strings ++ [letters])
    else
      gsosLoop char_set threshold rest 0 [] strings

/-- Source lines 102-117: extract the substrings of `word` that are maximal
runs of `char_set` characters longer than `threshold` (the Python default
`threshold=20` is passed explicitly by all callers here). -/
def get_strings_of_set (word char_set : Str) (threshold : Nat) : List Str :=
  gsosLoop char_set threshold word 0 [] []

/-- Specification-side description of maximal runs: the maximal contiguous
chunks of the input on which `p` holds, in order of occurrence.  Used to
characterise both `get_strings_of_set` (runs of alphabet characters) and
Python `str.split` (runs of non-whitespace). -/
def chunksBy (p : Char → Bool) : Str → List Str
  | [] => []
  | c :: rest =>
    if h : p c then
      (c :: rest.takeWhile p) :: chunksBy p (rest.dropWhile p)
    else
      chunksBy p rest
termination_by l => l.length
decreasing_by
  · have : (rest.dropWhile p).length ≤ rest.length := by
      clear h
      induction rest with
      | nil => simp
      | cons d ds ih =>
        rw [List.dropWhile_cons]
        split
        · exact Nat.le_succ_of_le ih
        · simp
    exact Nat.lt_succ_of_le this
  · exact Nat.lt_succ_self _

/-- Maximal runs of characters belonging to the alphabet `char_set`. -/
def splitRuns (char_set : Str) (w : Str) : List Str :=
  chunksBy (fun c => decide (c ∈ char_set)) w

/-- A maximal-run occurrence: `r` is a non-empty contiguous block of `w`
whose characters all satisfy `p`, immediately bordered (where a neighbour
exists) by characters that do not satisfy `p`. -/
def IsMaxRunOcc (p : Char → Bool) (w r : Str) : Prop :=
  ∃ pre post, w = pre ++ r ++ post ∧ r ≠ [] ∧ (∀ c ∈ r, p c) ∧
    (∀ d, pre.getLast? = some d → ¬ p d) ∧
    (∀ d, post.head? = some d → ¬ p d)

/-- Intermediate description of the runs still to be produced when the
current partial run is `letters`: induction artifact for `gsosLoop`. -/
def runCarry (char_set : Str) (letters w : Str) : List Str :=
  if letters.isEmpty then splitRuns char_set w
  else
    (letters ++ w.takeWhile (fun c => decide (c ∈ char_set))) ::
      chunksBy (fun c => decide (c ∈ char_set))
        (w.dropWhile (fun c => decide (c ∈ char_set)))

/-- One iteration of the accumulation loop of `shannon_entropy` (source
lines 95-98): the contribution of alphabet character `x`.  The ratio
`p_x = float(data.count(x))/len(data)` is written out in full; note that
Lean division by zero yields `0`, matching the guard `if not data` that
prevents `len(data) = 0` ever being used in the source. -/
noncomputable def entropyTerm (data : Str) (x : Char) : ℝ :=
  if 0 < (List.count x data : ℝ) / (data.length : ℝ) then
    -(((List.count x data : ℝ) / (data.length : ℝ)) *
      Real.logb 2 ((List.count x data : ℝ) / (data.length : ℝ)))
  else 0

/-- Source lines 87-99: Shannon entropy of `data` with respect to the
alphabet string `iterator`; `math.log(p_x, 2)` is `Real.logb 2 p_x`.
Python floats are idealised as real numbers. -/
noncomputable def shannon_entropy (data iterator : Str) : ℝ :=
  if data = [] then 0 else (iterator.map (entropyTerm data)).sum

/-- A git commit as the scanner reads it: `str(commit)` is `hexsha`,
plus the message and the committed date (a Unix timestamp). -/
structure Commit where
  hexsha : Str
  message : Str
  committed_date : Nat
deriving DecidableEq

/-- One file-level diff blob.  `diff` is the text obtained by
`blob.diff.decode('utf-8', errors='replace')` — decoding is lossy but
total, so the model carries the decoded text directly.  `b_path` and
`a_path` are `none` for Python `None`. -/
structure Blob where
  diff : Str
  b_path : Option Str
  a_path : Option Str
deriving DecidableEq

/-- A compiled regular expression is opaque to the scanner: only its
`findall` method is invoked, so it is modelled as that function. -/
structure PyRegex where
  findall : Str → List Str

/-- One reported Finding with the nine serialised fields of the output
surface. -/
structure Finding where
  date : Str
  path : Option Str
  branch : Str
  commit : Str
  diff : Str
  stringsFound : List Str
  printDiff : Str
  reason : Str
  commitHash : Str
deriving DecidableEq

/-- Python truthiness of an optional string: `None` and `""` are falsy
(used by `blob.b_path if blob.b_path else blob.a_path`). -/
def truthyOptStr : Option Str → Bool
  | none => false
  | some s => !s.isEmpty

/-- bcolors.WARNING (source line 124). -/
def bcolorsWARNING : Str := "\x1b[93m".toList

/-- bcolors.ENDC (source line 126). -/
def bcolorsENDC : Str := "\x1b[0m".toList

/-- Scanning loop of Python `str.replace` for a non-empty pattern
`o :: os`: replace non-overlapping occurrences left to right.  The fuel
argument (always called with the input length, which bounds the recursion
depth since every step consumes at least one character) makes the
recursion structural, so concrete instances evaluate in the kernel. -/
def replaceLoop (o : Char) (os new : Str) : Nat → Str → Str
  | 0, s => s
  | _ + 1, [] => []
  | fuel + 1, c :: rest =>
    if (o :: os).isPrefixOf (c :: rest) then
      new ++ replaceLoop o os new fuel ((c :: rest).drop (o :: os).length)
    else c :: replaceLoop o os new fuel rest

/-- Python `s.replace(old, new)`: with an empty pattern, Python inserts
`new` before every character and at the end; otherwise all non-overlapping
occurrences of `old` are replaced left to right. -/
def pyReplace (s old new : Str) : Str :=
  match old with
  | [] => new ++ s.flatMap (fun c => c :: new)
  | o :: os => replaceLoop o os new s.length s

/-- Source lines 239-263: `regex_check`.  The module-global built-in rule
set `regexes` (imported from the external truffleHogRegexes package) is
threaded as the first argument; a rule mapping is an association list in
insertion order, matching Python dict iteration.  The Finding is appended
once per matched string, inside the loop over `found_strings`. -/
def regex_check (regexes : List (Str × PyRegex)) (printableDiff : Str)
    (commit_time branch_name : Str) (prev_commit : Commit) (blob : Blob)
    (commitHash : Str) (custom_regexes : List (Str × PyRegex)) :
    List Finding :=
  let secret_regexes :=
    if custom_regexes.isEmpty then regexes else custom_regexes
  secret_regexes.flatMap (fun kr =>
    let found_strings := kr.2.findall printableDiff
    found_strings.foldl (fun acc found_string =>
      let found_diff := pyReplace printableDiff printableDiff
        (bcolorsWARNING ++ found_string ++ bcolorsENDC)
      if !found_diff.isEmpty then
        acc ++ [{ date := commit_time
                  path := if truthyOptStr blob.b_path then blob.b_path
                    else blob.a_path
                  branch := branch_name
                  commit := prev_commit.message
                  diff := blob.diff
                  stringsFound := found_strings
                  printDiff := found_diff
                  reason := kr.1
                  commitHash := prev_commit.hexsha }]
      else acc) [])

/-- The Finding built by `regex_check` for one matched string, after the
always-true `if found_diff` guard is discharged. -/
def mkRegexFinding (ct : Str) (pth : Option Str) (bn : Str) (pc : Commit)
    (dif : Str) (found_strings : List Str) (reason : Str)
    (found_string : Str) : Finding :=
  { date := ct
    path := pth
    branch := bn
    commit := pc.message
    diff := dif
    stringsFound := found_strings
    printDiff := bcolorsWARNING ++ found_string ++ bcolorsENDC
    reason := reason
    commitHash := pc.hexsha }

/-- findall of a literal (metacharacter-free) pattern `o :: os`: all
non-overlapping occurrences left to right, as Python `re.findall` returns
them for such a pattern. -/
def literalFindallLoop (o : Char) (os : Str) : Nat → Str → List Str
  | 0, _ => []
  | _ + 1, [] => []
  | fuel + 1, c :: rest =>
    if (o :: os).isPrefixOf (c :: rest) then
      (o :: os) ::
        literalFindallLoop o os fuel ((c :: rest).drop (o :: os).length)
    else literalFindallLoop o os fuel rest

/-- A compiled regex whose pattern is the literal string `o :: os`. -/
def literalRegex (o : Char) (os : Str) : PyRegex :=
  ⟨fun s => literalFindallLoop o os s.length s⟩

/-- A concrete commit for closed-instance theorems. -/
def sampleCommit : Commit := ⟨"b".toList, "msgB".toList, 0⟩

/-- A concrete non-binary blob for closed-instance theorems. -/
def sampleBlob : Blob := ⟨"ab ab".toList, some "f".toList, none⟩

/-- Python `printableDiff.split("\n")`: split at every newline, keeping
empty pieces (so the result is never empty). -/
def splitOnChar (sep : Char) : Str → List Str
  | [] => [[]]
  | c :: rest =>
    match splitOnChar sep rest with
    | [] => [[]]
    | s :: ss => if c = sep then [] :: s :: ss else (c :: s) :: ss

/-- The ASCII whitespace characters of Python `str.split()` (the detector
alphabets contain none of them, so non-ASCII whitespace — which Python
would also split on — cannot interact with any run of alphabet
characters). -/
def isPyWhitespace (c : Char) : Bool :=
  c == ' ' || c == '\t' || c == '\n' || c == '\r' ||
    c == '\x0b' || c == '\x0c'

/-- Python `line.split()`: maximal runs of non-whitespace characters
(empty pieces are dropped). -/
def pySplitWS (s : Str) : List Str :=
  chunksBy (fun c => !isPyWhitespace c) s

open scoped Classical in
/-- Source lines 210-216: the body of `for string in base64_strings`.
The scan state is the pair (stringsFound, printableDiff); a string whose
Base64 entropy exceeds 4.5 is appended to stringsFound and highlighted in
the running printableDiff. -/
noncomputable def entropyFlagB64 (st : List Str × Str) (string : Str) :
    List Str × Str :=
  if 4.5 < shannon_entropy string BASE64_CHARS then
    (st.1 ++ [string],
     pyReplace st.2 string (bcolorsWARNING ++ string ++ bcolorsENDC))
  else st

open scoped Classical in
/-- Source lines 217-223: the body of `for string in hex_strings`, with
the hexadecimal cutoff 3. -/
noncomputable def entropyFlagHex (st : List Str × Str) (string : Str) :
    List Str × Str :=
  if 3 < shannon_entropy string HEX_CHARS then
    (st.1 ++ [string],
     pyReplace st.2 string (bcolorsWARNING ++ string ++ bcolorsENDC))
  else st

/-- Source lines 207-223: the body of `for word in line.split()` — run
extraction for both alphabets followed by the two flagging loops. -/
noncomputable def entropyScanWord (st : List Str × Str) (word : Str) :
    List Str × Str :=
  let base64_strings := get_strings_of_set word BASE64_CHARS 20
  let hex_strings := get_strings_of_set word HEX_CHARS 20
  let st1 := base64_strings.foldl entropyFlagB64 st
  hex_strings.foldl entropyFlagHex st1

/-- Source lines 202-236: `find_entropy`.  The line and word loops fold
the scan state over the split diff; a Finding is produced exactly when at
least one string was flagged. -/
noncomputable def find_entropy (printableDiff commit_time branch_name : Str)
    (prev_commit : Commit) (blob : Blob) (commitHash : Str) :
    Option Finding :=
  let lines := splitOnChar '\n' printableDiff
  let st := lines.foldl
    (fun st line => (pySplitWS line).foldl entropyScanWord st)
    ([], printableDiff)
  if 0 < st.1.length then
    some { date := commit_time
           path := if truthyOptStr blob.b_path then blob.b_path
             else blob.a_path
           branch := branch_name
           commit := prev_commit.message
           diff := blob.diff
           stringsFound := st.1
           printDiff := st.2
           commitHash := prev_commit.hexsha
           reason := "High Entropy".toList }
  else none

open scoped Classical in
/-- The strings the word scan flags for one word, in flag order. -/
noncomputable def wordFlagged (word : Str) : List Str :=
  (get_strings_of_set word BASE64_CHARS 20).filter
    (fun s => decide (4.5 < shannon_entropy s BASE64_CHARS)) ++
  (get_strings_of_set word HEX_CHARS 20).filter
    (fun s => decide (3 < shannon_entropy s HEX_CHARS))

open scoped Classical in
/-- Specification-side list of Base64 candidates of a whole text: maximal
Base64-alphabet runs longer than 20 whose entropy exceeds 4.5. -/
noncomputable def flaggedB64 (text : Str) : List Str :=
  (splitRuns BASE64_CHARS text).filter
    (fun r => decide (20 < r.length ∧ 4.5 < shannon_entropy r BASE64_CHARS))

open scoped Classical in
/-- Specification-side list of hexadecimal candidates of a whole text:
maximal hex-alphabet runs longer than 20 whose entropy exceeds 3. -/
noncomputable def flaggedHex (text : Str) : List Str :=
  (splitRuns HEX_CHARS text).filter
    (fun r => decide (20 < r.length ∧ 3 < shannon_entropy r HEX_CHARS))

/-- Rendering of the commit timestamp (source lines 274-275):
`datetime.fromtimestamp(...).strftime(...)` is external formatting; the
model renders the Unix timestamp as its decimal digits.  No claim depends
on the date text. -/
def formatTime (n : Nat) : Str := (toString n).toList

open scoped Classical in
/-- Loop of `diff_worker` over the blobs of one diff (source lines
270-291), with `issues` the accumulator.  Binary blobs are skipped; for a
non-binary blob the commit timestamp of `prev_commit` is read before any
detector runs, so a `None` previous commit raises (modelled as
`Except.error`).  Console printing (lines 288-290) is external I/O and
not modelled; the returned issue list is the observable. -/
noncomputable def diff_worker_go (regexes : List (Str × PyRegex))
    (curr_commit : Commit) (prev_commit : Option Commit)
    (branch_name commitHash : Str) (custom_regexes : List (Str × PyRegex))
    (do_entropy do_regex : Bool) :
    List Blob → List Finding → Except String (List Finding)
  | [], issues => .ok issues
  | blob :: rest, issues =>
    let printableDiff := blob.diff
    if "Binary files".toList.isPrefixOf printableDiff then
      diff_worker_go regexes curr_commit prev_commit branch_name commitHash
        custom_regexes do_entropy do_regex rest issues
    else
      match prev_commit with
      | none =>
        .error "AttributeError: NoneType object has no committed_date"
      | some pc =>
        let commit_time := formatTime pc.committed_date
        let foundIssues :=
          (if do_entropy then
            (find_entropy printableDiff commit_time branch_name pc blob
              commitHash).toList
          else []) ++
          (if do_regex then
            regex_check regexes printableDiff commit_time branch_name pc
              blob commitHash custom_regexes
          else [])
        diff_worker_go regexes curr_commit prev_commit branch_name commitHash
          custom_regexes do_entropy do_regex rest (issues ++ foundIssues)

/-- Source lines 266-292: `diff_worker`.  The module-global rule set is
threaded as the first argument; `printJson` and `surpress_output` only
control console printing and are omitted. -/
noncomputable def diff_worker (regexes : List (Str × PyRegex))
    (diff : List Blob) (curr_commit : Commit) (prev_commit : Option Commit)
    (branch_name commitHash : Str) (custom_regexes : List (Str × PyRegex))
    (do_entropy do_regex : Bool) : Except String (List Finding) :=
  diff_worker_go regexes curr_commit prev_commit branch_name commitHash
    custom_regexes do_entropy do_regex diff []

/-- A concrete binary blob. -/
def binaryBlob : Blob :=
  ⟨"Binary files a/x and b/x differ".toList, some "x".toList, none⟩

/-- The repository as the walker consumes it: the enumerated remote
branches (name plus the commit list `iter_commits` yields, newest first)
and the two diff oracles — `prev.diff(curr, create_patch=True)` and
`curr.diff(NULL_TREE, create_patch=True)`.  Cloning and history
acquisition belong to the external Repository Provider. -/
structure RepoModel where
  branches : List (Str × List Commit)
  diffPair : Commit → Commit → List Blob
  diffNull : Commit → List Blob

/-- The walker's scan state: the dedup set `already_searched` (most
recently added key first), the accumulated findings (`handle_results`
writes one result file per finding and records the paths; the model
records the findings themselves), the Python loop variable `curr_commit`
— which, per Python scoping, persists across branch iterations — and a
ghost trace listing each (previous, current) pair actually handed to the
diff + detector pipeline, as hexsha pairs with `none` standing for
NULL_TREE.  The trace is pure instrumentation for stating the dedup
property: nothing reads it. -/
structure WalkState where
  already_searched : List Str
  foundIssues : List Finding
  currVar : Option Commit
  trace : List (Str × Option Str)

/-- `str(prev_commit)`: GitPython renders a commit as its hexsha, and
Python renders `None` as "None".  The MD5 digest of the concatenation is
modelled as the concatenation itself (the spec's stated no-collision
assumption). -/
def strOptCommit : Option Commit → Str
  | none => "None".toList
  | some c => c.hexsha

open scoped Classical in
/-- Source lines 318-346: the per-branch commit loop of `find_strings`.
Arguments mirror the loop's free variables: the remaining commits, the
`prev_commit` pointer, the `since_commit_reached` flag and the scan
state.  A detector error propagates (`Except`). -/
noncomputable def walkCommits (regexes : List (Str × PyRegex))
    (repo : RepoModel) (branch_name : Str) (since_commit : Option Str)
    (custom_regexes : List (Str × PyRegex)) (do_entropy do_regex : Bool) :
    List Commit → Option Commit → Bool → WalkState →
      Except String (Option Commit × WalkState)
  | [], prev_commit, _, st => .ok (prev_commit, st)
  | curr_commit :: rest, prev_commit, since_commit_reached, st =>
    let st := { st with currVar := some curr_commit }
    let commitHash := curr_commit.hexsha
    let since_commit_reached :=
      if since_commit = some commitHash then true else since_commit_reached
    if truthyOptStr since_commit ∧ since_commit_reached then
      walkCommits regexes repo branch_name since_commit custom_regexes
        do_entropy do_regex rest (some curr_commit) since_commit_reached st
    else
      let diff_hash := strOptCommit prev_commit ++ curr_commit.hexsha
      match prev_commit with
      | none =>
        walkCommits regexes repo branch_name since_commit custom_regexes
          do_entropy do_regex rest (some curr_commit) since_commit_reached st
      | some pc =>
        if diff_hash ∈ st.already_searched then
          walkCommits regexes repo branch_name since_commit custom_regexes
            do_entropy do_regex rest (some curr_commit) since_commit_reached
            st
        else
          let diff := repo.diffPair pc curr_commit
          let st := { st with
            already_searched := diff_hash :: st.already_searched }
          match diff_worker regexes diff curr_commit (some pc) branch_name
              commitHash custom_regexes do_entropy do_regex with
          | .error e => .error e
          | .ok foundIssues =>
            walkCommits regexes repo branch_name since_commit custom_regexes
              do_entropy do_regex rest (some curr_commit)
              since_commit_reached
              { st with
                foundIssues := st.foundIssues ++ foundIssues,
                trace := st.trace ++
                  [(pc.hexsha, some curr_commit.hexsha)] }

open scoped Classical in
/-- Source lines 314-352: one iteration of the branch loop — the commit
loop (bounded by `max_depth`) followed by the terminal diff of
`curr_commit` against NULL_TREE.  If the branch had no commits and no
earlier branch set `curr_commit`, the terminal step dereferences an
unassigned variable (`NameError`); with a stale `curr_commit` from an
earlier branch, the stale commit is re-diffed under this branch's name. -/
noncomputable def walkBranch (regexes : List (Str × PyRegex))
    (repo : RepoModel) (since_commit : Option Str) (max_depth : Nat)
    (custom_regexes : List (Str × PyRegex)) (do_entropy do_regex : Bool)
    (st : WalkState) (branch : Str × List Commit) :
    Except String WalkState :=
  match walkCommits regexes repo branch.1 since_commit custom_regexes
      do_entropy do_regex (branch.2.take max_depth) none false st with
  | .error e => .error e
  | .ok (prev_commit, st) =>
    match st.currVar with
    | none => .error "NameError: curr_commit referenced before assignment"
    | some curr_commit =>
      match diff_worker regexes (repo.diffNull curr_commit) curr_commit
          prev_commit branch.1 curr_commit.hexsha custom_regexes do_entropy
          do_regex with
      | .error e => .error e
      | .ok foundIssues =>
        .ok { st with
          foundIssues := st.foundIssues ++ foundIssues,
          trace := st.trace ++ [(curr_commit.hexsha, none)] }

open scoped Classical in
/-- The branch loop of `find_strings` (source line 314). -/
noncomputable def walkBranches (regexes : List (Str × PyRegex))
    (repo : RepoModel) (since_commit : Option Str) (max_depth : Nat)
    (custom_regexes : List (Str × PyRegex)) (do_entropy do_regex : Bool) :
    List (Str × List Commit) → WalkState → Except String WalkState
  | [], st => .ok st
  | b :: bs, st =>
    match walkBranch regexes repo since_commit max_depth custom_regexes
        do_entropy do_regex st b with
    | .error e => .error e
    | .ok st2 =>
      walkBranches regexes repo since_commit max_depth custom_regexes
        do_entropy do_regex bs st2

/-- The scan's observable output: the accumulated findings (the
`foundIssues` result paths stand for their findings) and the ghost diff
trace.  `project_path` and `clone_uri` concern the external repository
acquisition and are omitted. -/
structure ScanOutput where
  foundIssues : List Finding
  trace : List (Str × Option Str)

open scoped Classical in
/-- Source lines 304-360: `find_strings`.  Repository acquisition
(`clone_git_repo`, `Repo`), the results directory and final cleanup are
external; parameters `printJson` and `surpress_output` only govern
printing and are omitted; the module-global rule set is threaded as
`regexes`. -/
noncomputable def find_strings (regexes : List (Str × PyRegex))
    (repo : RepoModel) (since_commit : Option Str) (max_depth : Nat)
    (do_regex : Bool) (do_entropy : Bool)
    (custom_regexes : List (Str × PyRegex)) : Except String ScanOutput :=
  match walkBranches regexes repo since_commit max_depth custom_regexes
      do_entropy do_regex repo.branches ⟨[], [], none, []⟩ with
  | .error e => .error e
  | .ok st => .ok ⟨st.foundIssues, st.trace⟩

/-- A repository whose single enumerated branch has no commits. -/
def emptyBranchRepo : RepoModel :=
  ⟨[("origin/empty".toList, [])], fun _ _ => [], fun _ => []⟩

/-- The in-loop (non-terminal) pairs of a scan trace. -/
def inLoopPairs (trace : List (Str × Option Str)) : List (Str × Str) :=
  trace.filterMap (fun p => p.2.map (fun b => (p.1, b)))

/-- Dedup invariant: the in-loop scanned pairs are pairwise distinct, and
each one's dedup key is recorded in `already_searched`. -/
def WalkInv (st : WalkState) : Prop :=
  (inLoopPairs st.trace).Nodup ∧
  ∀ p ∈ inLoopPairs st.trace, p.1 ++ p.2 ∈ st.already_searched

/-- A root commit shared by two branches. -/
def rootCommit : Commit := ⟨"r".toList, "root".toList, 0⟩

/-- A repository whose second enumerated branch has no commits while the
first has one. -/
def staleBranchRepo : RepoModel :=
  ⟨[("origin/b1".toList, [rootCommit]), ("origin/empty".toList, [])],
   fun _ _ => [], fun _ => []⟩

/-- Two enumerated branches pointing at the same single commit. -/
def sharedRootRepo : RepoModel :=
  ⟨[("origin/b1".toList, [rootCommit]), ("origin/b2".toList, [rootCommit])],
   fun _ _ => [], fun _ => []⟩

/-- The older of two commits on one branch. -/
def commitOld : Commit := ⟨"aa".toList, "old".toList, 1⟩

/-- The newer of two commits on one branch. -/
def commitNew : Commit := ⟨"bb".toList, "new".toList, 2⟩

/-- A single branch with two commits, newest first. -/
def twoCommitRepo : RepoModel :=
  ⟨[("origin/master".toList, [commitNew, commitOld])],
   fun _ _ => [], fun _ => []⟩

/-- The secret-bearing diff blob of the C4 scenario. -/
def blobC4 : Blob := ⟨"x tok y".toList, some "f".toList, none⟩

/-- Commit B of the C4 scenario: inserts the secret. -/
def commitB4 : Commit := ⟨"bb".toList, "insert secret".toList, 5⟩

/-- Commit A of the C4 scenario: clean. -/
def commitA4 : Commit := ⟨"aa".toList, "clean".toList, 4⟩

/-- Commit P of the C4 scenario: the since-commit, strictly before A. -/
def commitP4 : Commit := ⟨"pp".toList, "since".toList, 3⟩

/-- The diff oracle of the C4 scenario: only the (B, A) pair changes
anything. -/
def diffC4 : Commit → Commit → List Blob := fun p c =>
  if p.hexsha = "bb".toList ∧ c.hexsha = "aa".toList then [blobC4] else []

theorem length_dropWhile_le (p : Char → Bool) (l : Str) :
    (l.dropWhile p).length ≤ l.length := by
  induction l with
  | nil => simp
  | cons d ds ih =>
    rw [List.dropWhile_cons]
    split
    · exact Nat.le_succ_of_le ih
    · simp

theorem chunksBy_nil (p : Char → Bool) : chunksBy p [] = [] := by
  simp [chunksBy]

theorem chunksBy_cons_pos (p : Char → Bool) (c : Char) (rest : Str)
    (h : p c) :
    chunksBy p (c :: rest) =
      (c :: rest.takeWhile p) :: chunksBy p (rest.dropWhile p) := by
  rw [chunksBy]
  simp [h]

theorem chunksBy_cons_neg (p : Char → Bool) (c : Char) (rest : Str)
    (h : ¬ p c) :
    chunksBy p (c :: rest) = chunksBy p rest := by
  rw [chunksBy]
  simp [h]

theorem head_dropWhile_false (p : Char → Bool) (l : Str) (d : Char)
    (hd : (l.dropWhile p).head? = some d) : p d = false := by
  have h := List.head?_dropWhile_not p l
  rw [hd] at h
  exact h

theorem takeWhile_append_all (p : Char → Bool) (l₁ l₂ : Str)
    (h : ∀ c ∈ l₁, p c) :
    (l₁ ++ l₂).takeWhile p = l₁ ++ l₂.takeWhile p := by
  induction l₁ with
  | nil => simp
  | cons c cs ih =>
    have hc : p c = true := h c (by simp)
    simp only [List.cons_append, List.takeWhile_cons, hc, if_true]
    rw [ih (fun d hd => h d (by simp [hd]))]

theorem dropWhile_append_all (p : Char → Bool) (l₁ l₂ : Str)
    (h : ∀ c ∈ l₁, p c) :
    (l₁ ++ l₂).dropWhile p = l₂.dropWhile p := by
  induction l₁ with
  | nil => simp
  | cons c cs ih =>
    have hc : p c = true := h c (by simp)
    simp only [List.cons_append, List.dropWhile_cons, hc, if_true]
    exact ih (fun d hd => h d (by simp [hd]))

theorem dropWhile_append_stop (p : Char → Bool) (l₁ l₂ : Str)
    (h : l₁.dropWhile p ≠ []) :
    (l₁ ++ l₂).dropWhile p = l₁.dropWhile p ++ l₂ := by
  induction l₁ with
  | nil => simp at h
  | cons c cs ih =>
    by_cases hc : p c
    · simp only [List.cons_append, List.dropWhile_cons, hc, if_true] at h ⊢
      exact ih h
    · have hc' : p c = false := by simpa using hc
      simp [List.dropWhile_cons, hc']

theorem getLast?_dropWhile (p : Char → Bool) (l : Str)
    (h : l.dropWhile p ≠ []) :
    (l.dropWhile p).getLast? = l.getLast? := by
  induction l with
  | nil => simp at h
  | cons c cs ih =>
    by_cases hc : p c
    · simp only [List.dropWhile_cons, hc, if_true] at h ⊢
      have hcs : cs ≠ [] := by
        intro hne
        subst hne
        simp at h
      rw [ih h]
      exact (List.getLast?_append_of_ne_nil [c] hcs).symm
    · have hc' : p c = false := by simpa using hc
      simp [List.dropWhile_cons, hc']

theorem chunksBy_sound (p : Char → Bool) :
    ∀ (w : Str), ∀ r ∈ chunksBy p w, IsMaxRunOcc p w r := by
  intro w
  induction w using chunksBy.induct p with
  | case1 =>
    intro r hr
    simp [chunksBy_nil] at hr
  | case2 c rest hc ih =>
    intro r hr
    rw [chunksBy_cons_pos p c rest hc] at hr
    rcases List.mem_cons.mp hr with hr | hr
    · refine ⟨[], rest.dropWhile p, ?_, by simp [hr], ?_, by simp, ?_⟩
      · rw [hr]
        simp [List.takeWhile_append_dropWhile]
      · intro d hd
        rw [hr] at hd
        rcases List.mem_cons.mp hd with h | h
        · rwa [h]
        · exact List.mem_takeWhile_imp h
      · intro d hd
        simp [head_dropWhile_false p rest d hd]
    · obtain ⟨pre, post, heq, hne, hall, hpre, hpost⟩ := ih r hr
      have hpre_ne : pre ≠ [] := by
        intro h0
        subst h0
        simp only [List.nil_append] at heq
        obtain ⟨r0, r', hr0⟩ := List.exists_cons_of_ne_nil hne
        have hh : (rest.dropWhile p).head? = some r0 := by
          rw [heq, hr0]
          simp
        have := head_dropWhile_false p rest r0 hh
        have := hall r0 (by simp [hr0])
        simp_all
      refine ⟨c :: rest.takeWhile p ++ pre, post, ?_, hne, hall, ?_, hpost⟩
      · have : rest.takeWhile p ++ rest.dropWhile p = rest :=
          List.takeWhile_append_dropWhile p rest
        calc c :: rest
            = c :: (rest.takeWhile p ++ rest.dropWhile p) := by rw [this]
          _ = c :: rest.takeWhile p ++ pre ++ r ++ post := by
              rw [heq]
              simp
      · intro d hd
        rw [List.getLast?_append_of_ne_nil _ hpre_ne] at hd
        exact hpre d hd
  | case3 c rest hc ih =>
    intro r hr
    rw [chunksBy_cons_neg p c rest (by simpa using hc)] at hr
    obtain ⟨pre, post, heq, hne, hall, hpre, hpost⟩ := ih r hr
    refine ⟨c :: pre, post, by simp [heq], hne, hall, ?_, hpost⟩
    intro d hd
    rcases List.eq_nil_or_concat pre with h0 | ⟨ys, y, hys⟩
    · subst h0
      simp only [List.getLast?_singleton, Option.some.injEq] at hd
      subst hd
      simpa using hc
    · rw [List.concat_eq_append] at hys
      subst hys
      rw [show c :: (ys ++ [y]) = (c :: ys) ++ [y] by simp,
        List.getLast?_concat] at hd
      rw [List.getLast?_concat] at hpre
      exact hpre d hd

theorem dropWhile_ne_nil_of_getLast (p : Char → Bool) (l : Str)
    (hne : l ≠ []) (h : ∀ d, l.getLast? = some d → ¬ p d) :
    l.dropWhile p ≠ [] := by
  intro hdrop
  rcases List.eq_nil_or_concat l with h0 | ⟨ys, y, hys⟩
  · exact hne h0
  · rw [List.concat_eq_append] at hys
    subst hys
    have hy : p y := by
      have := List.dropWhile_eq_nil_iff.mp hdrop
      exact this y (by simp)
    exact h y (List.getLast?_concat ys) hy

theorem chunksBy_complete (p : Char → Bool) :
    ∀ (w : Str), ∀ r, IsMaxRunOcc p w r → r ∈ chunksBy p w := by
  intro w
  induction w using chunksBy.induct p with
  | case1 =>
    intro r ⟨pre, post, heq, hne, _, _, _⟩
    rcases List.append_eq_nil.mp (List.append_eq_nil.mp heq.symm).1 with ⟨_, h2⟩
    exact absurd h2 hne
  | case2 c rest hc ih =>
    intro r ⟨pre, post, heq, hne, hall, hpre, hpost⟩
    rw [chunksBy_cons_pos p c rest hc]
    cases pre with
    | nil =>
      obtain ⟨r0, r', hr0⟩ := List.exists_cons_of_ne_nil hne
      subst hr0
      simp only [List.nil_append, List.cons_append, List.cons.injEq] at heq
      obtain ⟨hcr0, hrest⟩ := heq
      subst hcr0
      have htw : rest.takeWhile p = r' := by
        rw [hrest, takeWhile_append_all p r' post
          (fun d hd => hall d (by simp [hd]))]
        have hpostnil : post.takeWhile p = [] := by
          cases post with
          | nil => simp
          | cons d ds =>
            have : ¬ p d := hpost d rfl
            simp [List.takeWhile_cons, this]
        rw [hpostnil, List.append_nil]
      rw [htw]
      exact List.mem_cons_self _ _
    | cons d pre'' =>
      simp only [List.cons_append, List.cons.injEq] at heq
      obtain ⟨hdc, hrest⟩ := heq
      subst hdc
      have hpre_ne : pre'' ≠ [] := by
        intro h0
        subst h0
        exact hpre c rfl hc
      have hlast : ∀ e, pre''.getLast? = some e → ¬ p e := by
        intro e he
        apply hpre
        rw [show c :: pre'' = [c] ++ pre'' from rfl,
          List.getLast?_append_of_ne_nil [c] hpre_ne]
        exact he
      have hdw_ne : pre''.dropWhile p ≠ [] :=
        dropWhile_ne_nil_of_getLast p pre'' hpre_ne hlast
      apply List.mem_cons_of_mem
      apply ih
      refine ⟨pre''.dropWhile p, post, ?_, hne, hall, ?_, hpost⟩
      · rw [hrest, List.append_assoc,
          dropWhile_append_stop p pre'' (r ++ post) hdw_ne,
          List.append_assoc]
      · intro e he
        rw [getLast?_dropWhile p pre'' hdw_ne] at he
        exact hlast e he
  | case3 c rest hc ih =>
    intro r ⟨pre, post, heq, hne, hall, hpre, hpost⟩
    rw [chunksBy_cons_neg p c rest (by simpa using hc)]
    cases pre with
    | nil =>
      obtain ⟨r0, r', hr0⟩ := List.exists_cons_of_ne_nil hne
      subst hr0
      simp only [List.nil_append, List.cons_append, List.cons.injEq] at heq
      obtain ⟨hcr0, _⟩ := heq
      subst hcr0
      exact absurd (hall c (by simp)) hc
    | cons d pre'' =>
      simp only [List.cons_append, List.cons.injEq] at heq
      obtain ⟨hdc, hrest⟩ := heq
      subst hdc
      apply ih
      refine ⟨pre'', post, hrest, hne, hall, ?_, hpost⟩
      intro e he
      apply hpre
      have hpre_ne : pre'' ≠ [] := by
        intro h0
        subst h0
        simp at he
      rw [show c :: pre'' = [c] ++ pre'' from rfl,
        List.getLast?_append_of_ne_nil [c] hpre_ne]
      exact he

theorem chunksBy_mem_iff (p : Char → Bool) (w r : Str) :
    r ∈ chunksBy p w ↔ IsMaxRunOcc p w r :=
  ⟨chunksBy_sound p w r, chunksBy_complete p w r⟩

theorem gsosLoop_eq_runCarry (char_set : Str) (threshold : Nat) :
    ∀ (w letters : Str) (strings : List Str),
      gsosLoop char_set threshold w letters.length letters strings =
        strings ++ (runCarry char_set letters w).filter
          (fun r => decide (threshold < r.length)) := by
  intro w
  induction w with
  | nil =>
    intro letters strings
    rw [gsosLoop]
    cases letters with
    | nil => simp [runCarry, splitRuns, chunksBy_nil]
    | cons l ls =>
      have h1 : runCarry char_set (l :: ls) [] = [l :: ls] := by
        simp [runCarry, chunksBy_nil]
      rw [h1]
      by_cases hlen : threshold < ls.length + 1
      · rw [if_pos (by simpa using hlen)]
        have h4 : decide (threshold < (l :: ls).length) = true :=
          decide_eq_true (by simpa using hlen)
        simp only [List.filter_cons, h4]
        rw [if_pos (by simpa using hlen)]
        simp
      · rw [if_neg (by simpa using hlen)]
        have h4 : decide (threshold < (l :: ls).length) = false :=
          decide_eq_false (by simpa using hlen)
        simp only [List.filter_cons, h4]
        rw [if_neg (by simpa using hlen)]
        simp
  | cons c rest ih =>
    intro letters strings
    by_cases hc : c ∈ char_set
    · rw [gsosLoop, if_pos hc]
      have hlen : (letters ++ [c]).length = letters.length + 1 := by simp
      rw [← hlen, ih (letters ++ [c]) strings]
      have hcarry : runCarry char_set (letters ++ [c]) rest =
          runCarry char_set letters (c :: rest) := by
        cases letters with
        | nil =>
          simp [runCarry, splitRuns, chunksBy_cons_pos (fun x => decide (x ∈ char_set)) c rest (decide_eq_true hc),
            List.takeWhile_cons, List.dropWhile_cons, hc]
        | cons l ls =>
          simp [runCarry, List.takeWhile_cons, List.dropWhile_cons, hc]
      rw [hcarry]
    · rw [gsosLoop, if_neg hc]
      cases letters with
      | nil =>
        simp only [List.length_nil]
        rw [if_neg (by omega : ¬ ((0 : Nat) > threshold))]
        rw [show (0 : Nat) = ([] : Str).length from rfl, ih [] strings]
        have h2 : runCarry char_set [] (c :: rest) =
            runCarry char_set [] rest := by
          simp [runCarry, splitRuns, chunksBy_cons_neg (fun x => decide (x ∈ char_set)) c rest (by simp [hc])]
        rw [h2]
      | cons l ls =>
        have hcarry : runCarry char_set (l :: ls) (c :: rest) =
            (l :: ls) :: splitRuns char_set rest := by
          simp [runCarry, splitRuns, List.takeWhile_cons, List.dropWhile_cons,
            hc, chunksBy_cons_neg (fun x => decide (x ∈ char_set)) c rest (by simp [hc])]
        rw [hcarry]
        by_cases hlen : (l :: ls).length > threshold
        · rw [if_pos hlen, show (0 : Nat) = ([] : Str).length from rfl,
            ih [] (strings ++ [l :: ls])]
          have h3 : runCarry char_set [] rest = splitRuns char_set rest := by
            simp [runCarry]
          have h4 : decide (threshold < (l :: ls).length) = true := by
            simpa using hlen
          rw [h3, List.filter_cons, h4]
          simp
        · rw [if_neg hlen, show (0 : Nat) = ([] : Str).length from rfl,
            ih [] strings]
          have h3 : runCarry char_set [] rest = splitRuns char_set rest := by
            simp [runCarry]
          have h4 : decide (threshold < (l :: ls).length) = false := by
            simpa using hlen
          rw [h3, List.filter_cons, h4]
          simp

/-- C7 (supporting lemma): `get_strings_of_set` returns exactly the maximal
runs of alphabet characters longer than the threshold, in order. -/
theorem get_strings_of_set_eq_filter (word char_set : Str) (threshold : Nat) :
    get_strings_of_set word char_set threshold =
      (splitRuns char_set word).filter
        (fun r => decide (threshold < r.length)) := by
  rw [get_strings_of_set, show (0 : Nat) = ([] : Str).length from rfl,
    gsosLoop_eq_runCarry char_set threshold word [] []]
  simp [runCarry]

/-- C7: every string returned by `get_strings_of_set` has length strictly
greater than the threshold and consists entirely of characters of the
character set, and the returned strings are exactly the maximal contiguous
runs of set characters in the word that exceed the threshold, in their
order of occurrence. -/
theorem C7_get_strings_of_set_maximal_runs
    (word char_set : Str) (threshold : Nat) :
    get_strings_of_set word char_set threshold =
      (splitRuns char_set word).filter
        (fun r => decide (threshold < r.length)) ∧
    (∀ r ∈ get_strings_of_set word char_set threshold,
      threshold < r.length ∧ ∀ c ∈ r, c ∈ char_set) ∧
    (∀ r, r ∈ get_strings_of_set word char_set threshold ↔
      threshold < r.length ∧
        IsMaxRunOcc (fun c => decide (c ∈ char_set)) word r) := by
  refine ⟨get_strings_of_set_eq_filter word char_set threshold, ?_, ?_⟩
  · intro r hr
    rw [get_strings_of_set_eq_filter] at hr
    have h1 := List.of_mem_filter hr
    have h2 := List.mem_of_mem_filter hr
    refine ⟨by simpa using h1, ?_⟩
    obtain ⟨pre, post, _, _, hall, _, _⟩ := chunksBy_sound _ word r h2
    intro c hcr
    simpa using hall c hcr
  · intro r
    rw [get_strings_of_set_eq_filter, List.mem_filter]
    constructor
    · rintro ⟨hmem, hlen⟩
      exact ⟨by simpa using hlen, chunksBy_sound _ word r hmem⟩
    · rintro ⟨hlen, hocc⟩
      exact ⟨chunksBy_complete _ word r hocc, by simpa using hlen⟩

/-- Witness for C7 at a concrete input: the 21-character run of letters
`a` in a 22-character word is returned and satisfies the bounds. -/
theorem C7_witness_maximal_runs :
    20 < (List.replicate 21 'a').length ∧
      ∀ c ∈ List.replicate 21 'a', c ∈ ['a'] :=
  (C7_get_strings_of_set_maximal_runs
    (List.replicate 21 'a' ++ ['b']) ['a'] 20).2.1
    (List.replicate 21 'a') (by decide)

theorem entropyTerm_nonneg (data : Str) (x : Char) :
    0 ≤ entropyTerm data x := by
  rw [entropyTerm]
  split
  · rename_i hp
    have hple : (List.count x data : ℝ) / (data.length : ℝ) ≤ 1 := by
      rcases eq_or_ne data [] with hd | hd
      · subst hd
        simp at hp
      · have hnpos : (0 : ℝ) < (data.length : ℝ) := by
          exact_mod_cast List.length_pos.mpr hd
        rw [div_le_one hnpos]
        exact_mod_cast List.count_le_length x data
    have hlogb : Real.logb 2 ((List.count x data : ℝ) / (data.length : ℝ)) ≤ 0 :=
      Real.logb_nonpos (by norm_num) (le_of_lt hp) hple
    nlinarith
  · exact le_refl 0

theorem shannon_entropy_nonneg (data iterator : Str) :
    0 ≤ shannon_entropy data iterator := by
  rw [shannon_entropy]
  split
  · exact le_refl 0
  · refine List.sum_nonneg ?_
    intro t ht
    obtain ⟨x, _, hxeq⟩ := List.mem_map.mp ht
    rw [← hxeq]
    exact entropyTerm_nonneg data x

/-- Gibbs-Jensen core inequality: a finite probability vector's entropy in
base 2 is at most the base-2 logarithm of its support size. -/
theorem sum_neg_mul_logb_le_logb_card (S : Finset Char) (w : Char → ℝ)
    (hw : ∀ x ∈ S, 0 < w x) (hsum : ∑ x ∈ S, w x = 1) :
    ∑ x ∈ S, -(w x * Real.logb 2 (w x)) ≤ Real.logb 2 (S.card : ℝ) := by
  have hlog2 : (0 : ℝ) < Real.log 2 := Real.log_pos (by norm_num)
  have hconc : ConcaveOn ℝ (Set.Ioi (0 : ℝ)) Real.log :=
    strictConcaveOn_log_Ioi.concaveOn
  have h₀ : ∀ x ∈ S, (0 : ℝ) ≤ w x := fun x hx => (hw x hx).le
  have hmem : ∀ x ∈ S, (w x)⁻¹ ∈ Set.Ioi (0 : ℝ) := fun x hx =>
    Set.mem_Ioi.mpr (inv_pos.mpr (hw x hx))
  have hj := hconc.le_map_sum h₀ hsum hmem
  have hsum1 : ∑ x ∈ S, w x • (w x)⁻¹ = (S.card : ℝ) := by
    have hone : ∀ x ∈ S, w x • (w x)⁻¹ = (1 : ℝ) := by
      intro x hx
      rw [smul_eq_mul, mul_inv_cancel₀ (ne_of_gt (hw x hx))]
    rw [Finset.sum_congr rfl hone, Finset.sum_const, nsmul_eq_mul, mul_one]
  have hlhs : ∀ x ∈ S, w x • Real.log (w x)⁻¹ = -(w x * Real.log (w x)) := by
    intro x hx
    rw [smul_eq_mul, Real.log_inv]
    ring
  rw [Finset.sum_congr rfl hlhs, hsum1] at hj
  have hconv : ∑ x ∈ S, -(w x * Real.logb 2 (w x)) =
      (∑ x ∈ S, -(w x * Real.log (w x))) / Real.log 2 := by
    rw [Finset.sum_div]
    refine Finset.sum_congr rfl ?_
    intro x hx
    simp only [Real.logb]
    ring
  rw [hconv]
  simp only [Real.logb]
  exact (div_le_div_iff_of_pos_right hlog2).mpr hj

theorem shannon_entropy_le_logb (data iterator : Str)
    (hsub : ∀ c ∈ data, c ∈ iterator) (hnd : iterator.Nodup) :
    shannon_entropy data iterator ≤ Real.logb 2 (iterator.length : ℝ) := by
  rcases eq_or_ne data [] with hd | hd
  · subst hd
    rw [shannon_entropy, if_pos rfl]
    rcases Nat.eq_zero_or_pos iterator.length with h0 | hpos
    · rw [h0, Nat.cast_zero, Real.logb_zero]
    · exact Real.logb_nonneg (by norm_num) (by exact_mod_cast hpos)
  · have hnpos : (0 : ℝ) < (data.length : ℝ) := by
      exact_mod_cast List.length_pos.mpr hd
    rw [shannon_entropy, if_neg hd, ← List.sum_toFinset _ hnd]
    have hsubset : data.toFinset ⊆ iterator.toFinset := by
      intro x hx
      exact List.mem_toFinset.mpr (hsub x (List.mem_toFinset.mp hx))
    have hzero : ∀ x ∈ iterator.toFinset, x ∉ data.toFinset →
        entropyTerm data x = 0 := by
      intro x _ hxd
      have hcount : List.count x data = 0 := by
        rw [List.count_eq_zero]
        intro hmem
        exact hxd (List.mem_toFinset.mpr hmem)
      rw [entropyTerm, hcount]
      norm_num
    rw [← Finset.sum_subset hsubset hzero]
    have hstep : ∑ x ∈ data.toFinset, entropyTerm data x =
        ∑ x ∈ data.toFinset,
          -(((List.count x data : ℝ) / (data.length : ℝ)) *
            Real.logb 2 ((List.count x data : ℝ) / (data.length : ℝ))) := by
      refine Finset.sum_congr rfl ?_
      intro x hx
      have hcx : 0 < List.count x data :=
        List.count_pos_iff.mpr (List.mem_toFinset.mp hx)
      have hpx : 0 < (List.count x data : ℝ) / (data.length : ℝ) :=
        div_pos (by exact_mod_cast hcx) hnpos
      rw [entropyTerm, if_pos hpx]
    rw [hstep]
    have hwpos : ∀ x ∈ data.toFinset,
        0 < (List.count x data : ℝ) / (data.length : ℝ) := by
      intro x hx
      have hcx : 0 < List.count x data :=
        List.count_pos_iff.mpr (List.mem_toFinset.mp hx)
      exact div_pos (by exact_mod_cast hcx) hnpos
    have hwsum : ∑ x ∈ data.toFinset,
        (List.count x data : ℝ) / (data.length : ℝ) = 1 := by
      rw [← Finset.sum_div]
      have hcs : ∑ x ∈ data.toFinset, (List.count x data : ℝ) =
          (data.length : ℝ) := by
        rw [← Nat.cast_sum]
        exact_mod_cast List.sum_toFinset_count_eq_length data
      rw [hcs, div_self (ne_of_gt hnpos)]
    calc ∑ x ∈ data.toFinset,
          -(((List.count x data : ℝ) / (data.length : ℝ)) *
            Real.logb 2 ((List.count x data : ℝ) / (data.length : ℝ)))
        ≤ Real.logb 2 (data.toFinset.card : ℝ) :=
          sum_neg_mul_logb_le_logb_card data.toFinset _ hwpos hwsum
      _ ≤ Real.logb 2 (iterator.length : ℝ) := by
          obtain ⟨x0, hx0⟩ := List.exists_mem_of_ne_nil data hd
          refine Real.logb_le_logb_of_le (by norm_num) ?_ ?_
          · exact_mod_cast Finset.card_pos.mpr
              ⟨x0, List.mem_toFinset.mpr hx0⟩
          · exact_mod_cast le_trans (Finset.card_le_card hsubset)
              (List.toFinset_card_le iterator)

theorem shannon_entropy_ab_singleton :
    shannon_entropy ['a', 'b'] ['a'] = 1 / 2 := by
  have hc : (List.count 'a' (['a', 'b'] : Str) : ℝ) = 1 := by
    have h1 : List.count 'a' (['a', 'b'] : Str) = 1 := by decide
    rw [h1]
    norm_num
  have h2 : (((['a', 'b'] : Str).length : ℕ) : ℝ) = 2 := by
    norm_num
  rw [shannon_entropy, if_neg (by simp)]
  simp only [List.map_cons, List.map_nil, List.sum_cons, List.sum_nil,
    add_zero]
  rw [entropyTerm, hc, h2, if_pos (by norm_num)]
  have hlogb : Real.logb 2 ((1 : ℝ) / 2) = -1 := by
    rw [one_div, Real.logb_inv, Real.logb_self_eq_one (by norm_num)]
  rw [hlogb]
  norm_num

/-- C6 counterexample: for the data string "ab" and the one-character
alphabet "a", `shannon_entropy` returns 1/2, which exceeds
log2(alphabet size) = log2 1 = 0 — the claimed upper bound fails when the
data contains characters outside the alphabet. -/
theorem C6_counterexample_entropy_bound :
    ¬ (shannon_entropy ['a', 'b'] ['a'] ≤
        Real.logb 2 (((['a'] : Str).length : ℕ) : ℝ)) := by
  have hrhs : Real.logb 2 (((['a'] : Str).length : ℕ) : ℝ) = 0 := by
    have h1 : (((['a'] : Str).length : ℕ) : ℝ) = 1 := by norm_num
    rw [h1, Real.logb_one]
  rw [shannon_entropy_ab_singleton, hrhs]
  norm_num

/-- C6 (amended): `shannon_entropy` of the empty string is 0 under any
alphabet, and its result is always non-negative; the upper bound
log2(alphabet size) holds provided every character of the data occurs in
the alphabet and the alphabet lists no character twice (the original
unconditional bound fails, see the counterexample). -/
theorem C6_shannon_entropy_bounds :
    (∀ iterator : Str, shannon_entropy [] iterator = 0) ∧
    (∀ data iterator : Str, 0 ≤ shannon_entropy data iterator) ∧
    (∀ data iterator : Str, (∀ c ∈ data, c ∈ iterator) → iterator.Nodup →
      shannon_entropy data iterator ≤ Real.logb 2 (iterator.length : ℝ)) := by
  refine ⟨?_, shannon_entropy_nonneg, shannon_entropy_le_logb⟩
  intro iterator
  rw [shannon_entropy, if_pos rfl]

/-- Witness for C6 at a concrete input: data "a" over the two-character
alphabet "ab" satisfies all three amended bounds. -/
theorem C6_witness_entropy_bounds :
    shannon_entropy [] ['a', 'b'] = 0 ∧
    0 ≤ shannon_entropy ['a'] ['a', 'b'] ∧
    shannon_entropy ['a'] ['a', 'b'] ≤
      Real.logb 2 (((['a', 'b'] : Str).length : ℕ) : ℝ) :=
  ⟨C6_shannon_entropy_bounds.1 ['a', 'b'],
   C6_shannon_entropy_bounds.2.1 ['a'] ['a', 'b'],
   C6_shannon_entropy_bounds.2.2 ['a'] ['a', 'b'] (by decide) (by decide)⟩

theorem isPrefixOf_self (l : Str) : l.isPrefixOf l = true := by
  induction l with
  | nil => rfl
  | cons c cs ih => simp [List.isPrefixOf, ih]

theorem replaceLoop_nil (o : Char) (os new : Str) (fuel : Nat) :
    replaceLoop o os new fuel [] = [] := by
  cases fuel with
  | zero => rfl
  | succ n => rfl

theorem replaceLoop_self (c : Char) (rest new : Str) :
    replaceLoop c rest new (rest.length + 1) (c :: rest) = new := by
  rw [replaceLoop, if_pos (isPrefixOf_self (c :: rest))]
  rw [List.drop_length, replaceLoop_nil, List.append_nil]

/-- Python `s.replace(s, new) = new`: the whole string occurs in itself
exactly once (for the empty string, Python also returns `new`). -/
theorem pyReplace_self (s new : Str) : pyReplace s s new = new := by
  cases s with
  | nil => simp [pyReplace]
  | cons c rest => simpa [pyReplace] using replaceLoop_self c rest new

theorem mark_isEmpty_false (x : Str) :
    (bcolorsWARNING ++ x ++ bcolorsENDC).isEmpty = false := by
  rw [bcolorsWARNING]
  rfl

theorem regexFoldFunEq (printableDiff ct bn : Str) (pc : Commit)
    (pth : Option Str) (dif : Str) (found_strings : List Str)
    (reason : Str) :
    (fun (acc : List Finding) (found_string : Str) =>
      if !(pyReplace printableDiff printableDiff
          (bcolorsWARNING ++ found_string ++ bcolorsENDC)).isEmpty then
        acc ++ [{ date := ct
                  path := pth
                  branch := bn
                  commit := pc.message
                  diff := dif
                  stringsFound := found_strings
                  printDiff := pyReplace printableDiff printableDiff
                    (bcolorsWARNING ++ found_string ++ bcolorsENDC)
                  reason := reason
                  commitHash := pc.hexsha }]
      else acc) =
    (fun acc found_string => acc ++
      [mkRegexFinding ct pth bn pc dif found_strings reason
        found_string]) := by
  funext acc found_string
  rw [pyReplace_self, mark_isEmpty_false]
  simp [mkRegexFinding]

theorem foldl_append_map (g : Str → Finding) :
    ∀ (fs : List Str) (acc : List Finding),
      fs.foldl (fun acc x => acc ++ [g x]) acc = acc ++ fs.map g := by
  intro fs
  induction fs with
  | nil =>
    intro acc
    simp
  | cons x xs ih =>
    intro acc
    simp only [List.foldl_cons, List.map_cons]
    rw [ih]
    simp

theorem regex_check_eq_map (regexes : List (Str × PyRegex))
    (printableDiff ct bn : Str) (pc : Commit) (blob : Blob) (ch : Str)
    (custom : List (Str × PyRegex)) :
    regex_check regexes printableDiff ct bn pc blob ch custom =
      (if custom.isEmpty then regexes else custom).flatMap (fun kr =>
        (kr.2.findall printableDiff).map (mkRegexFinding ct
          (if truthyOptStr blob.b_path then blob.b_path else blob.a_path)
          bn pc blob.diff (kr.2.findall printableDiff) kr.1)) := by
  simp only [regex_check]
  simp only [regexFoldFunEq, foldl_append_map]
  simp

/-- C2 (amended): for every diff text and rule mapping, `regex_check`
emits one Finding per individual regex match — a rule with k matches
contributes k Findings — and every emitted Finding carries the full list
of substrings matched by its rule, with reason equal to the rule's name
and commit data taken from `prev_commit`. -/
theorem C2_regex_check_per_match (regexes : List (Str × PyRegex))
    (printableDiff ct bn : Str) (pc : Commit) (blob : Blob) (ch : Str)
    (custom : List (Str × PyRegex)) :
    (regex_check regexes printableDiff ct bn pc blob ch custom).length =
      ((if custom.isEmpty then regexes else custom).map
        (fun kr => (kr.2.findall printableDiff).length)).sum ∧
    ∀ f ∈ regex_check regexes printableDiff ct bn pc blob ch custom,
      ∃ kr ∈ (if custom.isEmpty then regexes else custom),
        f.reason = kr.1 ∧ f.stringsFound = kr.2.findall printableDiff ∧
        f.commit = pc.message ∧ f.commitHash = pc.hexsha := by
  constructor
  · rw [regex_check_eq_map, List.length_flatMap]
    simp only [Function.comp_def, List.length_map]
  · intro f hf
    rw [regex_check_eq_map] at hf
    obtain ⟨kr, hkr, hf2⟩ := List.mem_flatMap.mp hf
    obtain ⟨fs, _, hfeq⟩ := List.mem_map.mp hf2
    refine ⟨kr, hkr, ?_⟩
    rw [← hfeq]
    simp [mkRegexFinding]

/-- C2 counterexample: a single supplied rule whose pattern "ab" matches
twice in the diff "ab ab" yields two Findings, not the single Finding per
matching rule that the claim asserts. -/
theorem C2_counterexample_two_findings :
    ((literalRegex 'a' ['b']).findall "ab ab".toList).length = 2 ∧
    ¬ ((regex_check [] "ab ab".toList [] [] sampleCommit sampleBlob []
        [("rule1".toList, literalRegex 'a' ['b'])]).length = 1) := by
  constructor
  · decide
  · decide

/-- C8: when a non-empty custom rule mapping is supplied, pattern
detection evaluates only the supplied rules — every Finding's reason is
the name of a supplied rule and its stringsFound are exactly that rule's
matches on the diff, so no built-in rule absent from the mapping can ever
name a Finding. -/
theorem C8_custom_rules_replace (regexes : List (Str × PyRegex))
    (printableDiff ct bn : Str) (pc : Commit) (blob : Blob) (ch : Str)
    (custom : List (Str × PyRegex)) (hne : custom ≠ []) :
    ∀ f ∈ regex_check regexes printableDiff ct bn pc blob ch custom,
      ∃ kr ∈ custom, f.reason = kr.1 ∧
        f.stringsFound = kr.2.findall printableDiff := by
  have hie : custom.isEmpty = false := by
    cases custom with
    | nil => exact absurd rfl hne
    | cons a as => rfl
  intro f hf
  rw [regex_check_eq_map, hie] at hf
  simp only [Bool.false_eq_true, if_false] at hf
  obtain ⟨kr, hkr, hf2⟩ := List.mem_flatMap.mp hf
  obtain ⟨fs, _, hfeq⟩ := List.mem_map.mp hf2
  refine ⟨kr, hkr, ?_⟩
  rw [← hfeq]
  simp [mkRegexFinding]

/-- Witness for C8 at a concrete input: with built-in rule "builtin" and
the single supplied rule "only" matching the letter x, the Finding
produced for the diff "ab x" belongs to the supplied rule. -/
theorem C8_witness_custom_rules :
    ∃ kr ∈ [("only".toList, literalRegex 'x' [])],
      (mkRegexFinding [] (some "f".toList) [] sampleCommit sampleBlob.diff
        [['x']] "only".toList ['x']).reason = kr.1 ∧
      (mkRegexFinding [] (some "f".toList) [] sampleCommit sampleBlob.diff
        [['x']] "only".toList ['x']).stringsFound =
        kr.2.findall "ab x".toList :=
  C8_custom_rules_replace [("builtin".toList, literalRegex 'a' ['b'])]
    "ab x".toList [] [] sampleCommit sampleBlob []
    [("only".toList, literalRegex 'x' [])] (by simp)
    (mkRegexFinding [] (some "f".toList) [] sampleCommit sampleBlob.diff
      [['x']] "only".toList ['x'])
    (by decide)

/-- C10: calling `regex_check` with the empty (default) custom mapping
silently falls back to the built-in rule set — the result is the same as
supplying the built-in mapping itself, so an empty mapping does not
suppress built-in pattern Findings — while any non-empty mapping does:
every Finding then bears a supplied rule's name. -/
theorem C10_empty_mapping_fallback (regexes : List (Str × PyRegex))
    (printableDiff ct bn : Str) (pc : Commit) (blob : Blob) (ch : Str) :
    regex_check regexes printableDiff ct bn pc blob ch [] =
      regex_check regexes printableDiff ct bn pc blob ch regexes ∧
    (∀ custom : List (Str × PyRegex), custom ≠ [] →
      ∀ f ∈ regex_check regexes printableDiff ct bn pc blob ch custom,
        f.reason ∈ custom.map Prod.fst) := by
  constructor
  · rw [regex_check_eq_map, regex_check_eq_map]
    cases regexes with
    | nil => rfl
    | cons a as => rfl
  · intro custom hne f hf
    have hie : custom.isEmpty = false := by
      cases custom with
      | nil => exact absurd rfl hne
      | cons a as => rfl
    rw [regex_check_eq_map, hie] at hf
    simp only [Bool.false_eq_true, if_false] at hf
    obtain ⟨kr, hkr, hf2⟩ := List.mem_flatMap.mp hf
    obtain ⟨fs, _, hfeq⟩ := List.mem_map.mp hf2
    rw [← hfeq]
    simp only [mkRegexFinding]
    exact List.mem_map.mpr ⟨kr, hkr, rfl⟩

/-- Witness for C10 at concrete inputs: the empty mapping reproduces the
built-in behaviour on the diff "ab", and a non-empty mapping confines the
Finding's reason to its own rule names. -/
theorem C10_witness_empty_mapping :
    (regex_check [("builtin".toList, literalRegex 'a' ['b'])] "ab".toList
        [] [] sampleCommit sampleBlob [] [] =
      regex_check [("builtin".toList, literalRegex 'a' ['b'])] "ab".toList
        [] [] sampleCommit sampleBlob []
        [("builtin".toList, literalRegex 'a' ['b'])]) ∧
    (mkRegexFinding [] (some "f".toList) [] sampleCommit sampleBlob.diff
        [['x']] "only".toList ['x']).reason ∈
      ([("only".toList, literalRegex 'x' [])].map Prod.fst) :=
  ⟨(C10_empty_mapping_fallback [("builtin".toList, literalRegex 'a' ['b'])]
      "ab".toList [] [] sampleCommit sampleBlob []).1,
   (C10_empty_mapping_fallback [("builtin".toList, literalRegex 'a' ['b'])]
      "ab x".toList [] [] sampleCommit sampleBlob []).2
    [("only".toList, literalRegex 'x' [])] (by simp)
    (mkRegexFinding [] (some "f".toList) [] sampleCommit sampleBlob.diff
      [['x']] "only".toList ['x'])
    (by decide)⟩

theorem takeWhile_append_stop (p : Char → Bool) (l₁ l₂ : Str)
    (h : l₁.dropWhile p ≠ []) :
    (l₁ ++ l₂).takeWhile p = l₁.takeWhile p := by
  induction l₁ with
  | nil => simp at h
  | cons c cs ih =>
    by_cases hc : p c
    · simp only [List.cons_append, List.takeWhile_cons,
        List.dropWhile_cons, hc, if_true] at h ⊢
      rw [ih h]
    · have hc' : p c = false := by simpa using hc
      simp [List.takeWhile_cons, hc']

theorem chunksBy_append_break (q : Char → Bool) (d : Char)
    (hd : q d = false) (b : Str) :
    ∀ a : Str, chunksBy q (a ++ d :: b) = chunksBy q a ++ chunksBy q b := by
  intro a
  induction a using chunksBy.induct q with
  | case1 =>
    rw [List.nil_append, chunksBy_nil, List.nil_append,
      chunksBy_cons_neg q d b (by simp [hd])]
  | case2 c a' hc ih =>
    rw [List.cons_append, chunksBy_cons_pos q c _ hc,
      chunksBy_cons_pos q c a' hc]
    by_cases hdrop : a'.dropWhile q = []
    · have hall : ∀ x ∈ a', q x := by
        intro x hx
        exact List.dropWhile_eq_nil_iff.mp hdrop x hx
      rw [takeWhile_append_all q a' (d :: b) hall,
        dropWhile_append_all q a' (d :: b) hall,
        List.takeWhile_cons, List.dropWhile_cons, hd]
      simp only [Bool.false_eq_true, if_false, List.append_nil]
      rw [chunksBy_cons_neg q d b (by simp [hd])]
      have htw : a'.takeWhile q = a' :=
        List.takeWhile_eq_self_iff.mpr hall
      rw [htw, hdrop, chunksBy_nil]
      simp
    · rw [takeWhile_append_stop q a' (d :: b) hdrop,
        dropWhile_append_stop q a' (d :: b) hdrop, ih]
      simp
  | case3 c a' hc ih =>
    have hc' : q c = false := by simpa using hc
    rw [List.cons_append, chunksBy_cons_neg q c _ (by simp [hc']),
      chunksBy_cons_neg q c a' (by simp [hc']), ih]

theorem chunksBy_append_sepjoin (q : Char → Bool) (sep : Char)
    (hsep : q sep = false) :
    ∀ (ss : List Str) (a : Str),
      chunksBy q (a ++ ss.flatMap (fun t => sep :: t)) =
        chunksBy q a ++ ss.flatMap (chunksBy q) := by
  intro ss
  induction ss with
  | nil =>
    intro a
    simp
  | cons t ss' ih =>
    intro a
    have hshape : a ++ ((t :: ss').flatMap (fun t => sep :: t)) =
        a ++ sep :: (t ++ ss'.flatMap (fun t => sep :: t)) := by
      simp
    rw [hshape, chunksBy_append_break q sep hsep _ a, ih t]
    simp

theorem splitOnChar_ne_nil (sep : Char) (w : Str) :
    splitOnChar sep w ≠ [] := by
  cases w with
  | nil => simp [splitOnChar]
  | cons c rest =>
    rw [splitOnChar]
    cases splitOnChar sep rest with
    | nil => simp
    | cons s ss =>
      by_cases hc : c = sep
      · simp [hc]
      · simp [hc]

theorem splitOnChar_recover (sep : Char) :
    ∀ (w s : Str) (ss : List Str), splitOnChar sep w = s :: ss →
      w = s ++ ss.flatMap (fun t => sep :: t) := by
  intro w
  induction w with
  | nil =>
    intro s ss h
    simp only [splitOnChar] at h
    cases h
    simp
  | cons c rest ih =>
    intro s ss h
    rw [splitOnChar] at h
    rcases hrec : splitOnChar sep rest with _ | ⟨s', ss'⟩
    · exact absurd hrec (splitOnChar_ne_nil sep rest)
    · rw [hrec] at h
      dsimp only at h
      by_cases hc : c = sep
      · rw [if_pos hc] at h
        cases h
        subst hc
        have := ih s' ss' hrec
        simp [this]
      · rw [if_neg hc] at h
        cases h
        have := ih s' ss hrec
        simp [this]

theorem splitOnChar_flatMap_chunksBy (q : Char → Bool) (sep : Char)
    (hsep : q sep = false) (w : Str) :
    (splitOnChar sep w).flatMap (chunksBy q) = chunksBy q w := by
  rcases hrec : splitOnChar sep w with _ | ⟨s, ss⟩
  · exact absurd hrec (splitOnChar_ne_nil sep w)
  · rw [splitOnChar_recover sep w s ss hrec,
      chunksBy_append_sepjoin q sep hsep ss s]
    simp

theorem chunksBy_nested (p q : Char → Bool)
    (hpq : ∀ c, p c = true → q c = true) :
    ∀ w : Str, (chunksBy q w).flatMap (chunksBy p) = chunksBy p w := by
  intro w
  induction w using chunksBy.induct q with
  | case1 => rw [chunksBy_nil, chunksBy_nil]; rfl
  | case2 c rest hc ih =>
    rw [chunksBy_cons_pos q c rest hc]
    simp only [List.flatMap_cons]
    rw [ih]
    rcases hdw : rest.dropWhile q with _ | ⟨d, b⟩
    · rw [chunksBy_nil]
      have hrest : rest.takeWhile q = rest := by
        have := List.takeWhile_append_dropWhile q rest
        rw [hdw, List.append_nil] at this
        rw [this]
      rw [hrest]
      simp
    · have hqd : q d = false := head_dropWhile_false q rest d (by rw [hdw]; rfl)
      have hpd : p d = false := by
        rcases hp : p d with _ | _
        · rfl
        · exact absurd (hpq d hp) (by simp [hqd])
      have hsplit : c :: rest = (c :: rest.takeWhile q) ++ d :: b := by
        have := List.takeWhile_append_dropWhile q rest
        rw [hdw] at this
        rw [show (c :: rest.takeWhile q) ++ d :: b =
          c :: (rest.takeWhile q ++ d :: b) from rfl, this]
      rw [hsplit, chunksBy_append_break p d hpd b (c :: rest.takeWhile q),
        chunksBy_cons_neg p d b (by simp [hpd])]
  | case3 c rest hc ih =>
    have hqc : q c = false := by simpa using hc
    have hpc : p c = false := by
      rcases hp : p c with _ | _
      · rfl
      · exact absurd (hpq c hp) (by simp [hqc])
    rw [chunksBy_cons_neg q c rest (by simp [hqc]),
      chunksBy_cons_neg p c rest (by simp [hpc]), ih]

theorem splitRuns_lines_words (cs : Str)
    (hws : ∀ c ∈ cs, isPyWhitespace c = false) (text : Str) :
    (splitOnChar '\n' text).flatMap
      (fun line => (pySplitWS line).flatMap (splitRuns cs)) =
    splitRuns cs text := by
  have hsub : ∀ c, (fun c => decide (c ∈ cs)) c = true →
      (fun c => !isPyWhitespace c) c = true := by
    intro c hc
    simp only [decide_eq_true_eq] at hc
    simp [hws c hc]
  have hnl : (fun c => !isPyWhitespace c) '\n' = false := by
    simp [isPyWhitespace]
  have hsr : splitRuns cs = chunksBy (fun c => decide (c ∈ cs)) := rfl
  simp only [pySplitWS, hsr]
  rw [← List.bind_assoc,
    splitOnChar_flatMap_chunksBy (fun c => !isPyWhitespace c) '\n' hnl text,
    chunksBy_nested (fun c => decide (c ∈ cs))
      (fun c => !isPyWhitespace c) hsub text]

open scoped Classical in
theorem foldl_entropyFlagB64_fst :
    ∀ (xs : List Str) (st : List Str × Str),
      (xs.foldl entropyFlagB64 st).1 =
        st.1 ++ xs.filter
          (fun s => decide (4.5 < shannon_entropy s BASE64_CHARS)) := by
  intro xs
  induction xs with
  | nil =>
    intro st
    simp
  | cons x xs ih =>
    intro st
    rw [List.foldl_cons, ih, List.filter_cons]
    by_cases hx : 4.5 < shannon_entropy x BASE64_CHARS
    · rw [entropyFlagB64, if_pos hx]
      simp [hx]
    · rw [entropyFlagB64, if_neg hx]
      simp [hx]

open scoped Classical in
theorem foldl_entropyFlagHex_fst :
    ∀ (xs : List Str) (st : List Str × Str),
      (xs.foldl entropyFlagHex st).1 =
        st.1 ++ xs.filter
          (fun s => decide (3 < shannon_entropy s HEX_CHARS)) := by
  intro xs
  induction xs with
  | nil =>
    intro st
    simp
  | cons x xs ih =>
    intro st
    rw [List.foldl_cons, ih, List.filter_cons]
    by_cases hx : 3 < shannon_entropy x HEX_CHARS
    · rw [entropyFlagHex, if_pos hx]
      simp [hx]
    · rw [entropyFlagHex, if_neg hx]
      simp [hx]

theorem entropyScanWord_fst (st : List Str × Str) (word : Str) :
    (entropyScanWord st word).1 = st.1 ++ wordFlagged word := by
  simp only [entropyScanWord]
  rw [foldl_entropyFlagHex_fst, foldl_entropyFlagB64_fst, wordFlagged]
  simp

theorem foldl_entropyScanWord_fst :
    ∀ (words : List Str) (st : List Str × Str),
      (words.foldl entropyScanWord st).1 =
        st.1 ++ words.flatMap wordFlagged := by
  intro words
  induction words with
  | nil =>
    intro st
    simp
  | cons w ws ih =>
    intro st
    rw [List.foldl_cons, ih, entropyScanWord_fst]
    simp

theorem foldl_lines_fst :
    ∀ (lines : List Str) (st : List Str × Str),
      (lines.foldl
        (fun st line => (pySplitWS line).foldl entropyScanWord st) st).1 =
        st.1 ++ lines.flatMap
          (fun line => (pySplitWS line).flatMap wordFlagged) := by
  intro lines
  induction lines with
  | nil =>
    intro st
    simp
  | cons l ls ih =>
    intro st
    rw [List.foldl_cons, ih, foldl_entropyScanWord_fst]
    simp

open scoped Classical in
theorem flaggedB64_decompose (text : Str) :
    flaggedB64 text =
      (splitOnChar '\n' text).flatMap (fun line =>
        (pySplitWS line).flatMap (fun word =>
          (get_strings_of_set word BASE64_CHARS 20).filter
            (fun s => decide (4.5 < shannon_entropy s BASE64_CHARS)))) := by
  rw [flaggedB64, ← splitRuns_lines_words BASE64_CHARS (by decide) text,
    List.filter_flatMap]
  congr 1
  funext line
  rw [List.filter_flatMap]
  congr 1
  funext word
  rw [get_strings_of_set_eq_filter, List.filter_filter]
  refine List.filter_congr ?_
  intro r _
  rw [Bool.decide_and, Bool.and_comm]

open scoped Classical in
theorem flaggedHex_decompose (text : Str) :
    flaggedHex text =
      (splitOnChar '\n' text).flatMap (fun line =>
        (pySplitWS line).flatMap (fun word =>
          (get_strings_of_set word HEX_CHARS 20).filter
            (fun s => decide (3 < shannon_entropy s HEX_CHARS)))) := by
  rw [flaggedHex, ← splitRuns_lines_words HEX_CHARS (by decide) text,
    List.filter_flatMap]
  congr 1
  funext line
  rw [List.filter_flatMap]
  congr 1
  funext word
  rw [get_strings_of_set_eq_filter, List.filter_filter]
  refine List.filter_congr ?_
  intro r _
  rw [Bool.decide_and, Bool.and_comm]

open scoped Classical in
theorem mem_flagged_iff (text : Str) (s : Str) :
    s ∈ (splitOnChar '\n' text).flatMap
      (fun line => (pySplitWS line).flatMap wordFlagged) ↔
    (s ∈ flaggedB64 text ∨ s ∈ flaggedHex text) := by
  rw [flaggedB64_decompose, flaggedHex_decompose]
  simp only [List.mem_flatMap, wordFlagged, List.mem_append]
  constructor
  · rintro ⟨line, hl, word, hw, hs | hs⟩
    · exact Or.inl ⟨line, hl, word, hw, hs⟩
    · exact Or.inr ⟨line, hl, word, hw, hs⟩
  · rintro (⟨line, hl, word, hw, hs⟩ | ⟨line, hl, word, hw, hs⟩)
    · exact ⟨line, hl, word, hw, Or.inl hs⟩
    · exact ⟨line, hl, word, hw, Or.inr hs⟩

open scoped Classical in
/-- C5: the entropy detector flags a substring exactly when it is a
maximal run of alphabet characters of the diff longer than 20 whose
Shannon entropy exceeds 4.5 (Base64 alphabet) or 3 (hex alphabet) — a run
may qualify under both checks — and it emits exactly one Finding for the
file exactly when at least one substring is flagged, carrying all flagged
substrings; otherwise it emits no Finding. -/
theorem C5_find_entropy_flags (printableDiff ct bn : Str)
    (pc : Commit) (blob : Blob) (ch : Str) :
    (∀ s, s ∈ flaggedB64 printableDiff ↔
      (20 < s.length ∧ 4.5 < shannon_entropy s BASE64_CHARS ∧
        IsMaxRunOcc (fun c => decide (c ∈ BASE64_CHARS)) printableDiff s)) ∧
    (∀ s, s ∈ flaggedHex printableDiff ↔
      (20 < s.length ∧ 3 < shannon_entropy s HEX_CHARS ∧
        IsMaxRunOcc (fun c => decide (c ∈ HEX_CHARS)) printableDiff s)) ∧
    (match find_entropy printableDiff ct bn pc blob ch with
     | some f => f.stringsFound ≠ [] ∧ f.reason = "High Entropy".toList ∧
         ∀ s, s ∈ f.stringsFound ↔
           (s ∈ flaggedB64 printableDiff ∨ s ∈ flaggedHex printableDiff)
     | none =>
         flaggedB64 printableDiff = [] ∧ flaggedHex printableDiff = []) := by
  refine ⟨?_, ?_, ?_⟩
  · intro s
    rw [flaggedB64, splitRuns, List.mem_filter]
    constructor
    · rintro ⟨hmem, hcond⟩
      simp only [decide_eq_true_eq] at hcond
      exact ⟨hcond.1, hcond.2, chunksBy_sound _ printableDiff s hmem⟩
    · rintro ⟨h1, h2, hocc⟩
      refine ⟨chunksBy_complete _ printableDiff s hocc, ?_⟩
      simp only [decide_eq_true_eq]
      exact ⟨h1, h2⟩
  · intro s
    rw [flaggedHex, splitRuns, List.mem_filter]
    constructor
    · rintro ⟨hmem, hcond⟩
      simp only [decide_eq_true_eq] at hcond
      exact ⟨hcond.1, hcond.2, chunksBy_sound _ printableDiff s hmem⟩
    · rintro ⟨h1, h2, hocc⟩
      refine ⟨chunksBy_complete _ printableDiff s hocc, ?_⟩
      simp only [decide_eq_true_eq]
      exact ⟨h1, h2⟩
  · have hS : ((splitOnChar '\n' printableDiff).foldl
        (fun st line => (pySplitWS line).foldl entropyScanWord st)
        ([], printableDiff)).1 =
        (splitOnChar '\n' printableDiff).flatMap
          (fun line => (pySplitWS line).flatMap wordFlagged) := by
      rw [foldl_lines_fst]
      simp
    simp only [find_entropy]
    by_cases hlen : 0 < ((splitOnChar '\n' printableDiff).foldl
        (fun st line => (pySplitWS line).foldl entropyScanWord st)
        ([], printableDiff)).1.length
    · rw [if_pos hlen]
      dsimp only
      refine ⟨?_, rfl, ?_⟩
      · intro h0
        rw [h0] at hlen
        simp at hlen
      · intro s
        rw [hS]
        exact mem_flagged_iff printableDiff s
    · rw [if_neg hlen]
      rw [hS] at hlen
      have htot : (splitOnChar '\n' printableDiff).flatMap
          (fun line => (pySplitWS line).flatMap wordFlagged) = [] := by
        rcases hcase : (splitOnChar '\n' printableDiff).flatMap
            (fun line => (pySplitWS line).flatMap wordFlagged) with _ | ⟨a, as⟩
        · rfl
        · rw [hcase] at hlen
          simp at hlen
      constructor
      · refine List.eq_nil_iff_forall_not_mem.mpr ?_
        intro s hs
        have := (mem_flagged_iff printableDiff s).mpr (Or.inl hs)
        rw [htot] at this
        simp at this
      · refine List.eq_nil_iff_forall_not_mem.mpr ?_
        intro s hs
        have := (mem_flagged_iff printableDiff s).mpr (Or.inr hs)
        rw [htot] at this
        simp at this

/-- C9: a blob whose decoded diff starts with "Binary files" (the
binary-content marker) contributes nothing to `diff_worker`: the scan of
the remaining blobs is unchanged and the blob's content reaches neither
detector, whichever detectors are enabled. -/
theorem C9_binary_blob_skipped (regexes : List (Str × PyRegex))
    (blob : Blob) (rest : List Blob) (curr : Commit) (prev : Option Commit)
    (bn ch : Str) (custom : List (Str × PyRegex))
    (do_entropy do_regex : Bool)
    (hbin : "Binary files".toList.isPrefixOf blob.diff = true) :
    diff_worker regexes (blob :: rest) curr prev bn ch custom do_entropy
        do_regex =
      diff_worker regexes rest curr prev bn ch custom do_entropy
        do_regex := by
  rw [diff_worker, diff_worker, diff_worker_go.eq_def]
  simp only [hbin, if_true]

/-- Witness for C9 at a concrete input: a binary blob is skipped with both
detectors enabled, and the resulting scan of no blobs reports no
Findings. -/
theorem C9_witness_binary_blob :
    ("Binary files".toList.isPrefixOf binaryBlob.diff = true) ∧
    diff_worker [] [binaryBlob] sampleCommit (some sampleCommit) [] []
        [] true true =
      diff_worker [] [] sampleCommit (some sampleCommit) [] [] [] true
        true ∧
    diff_worker [] [] sampleCommit (some sampleCommit) [] [] [] true true =
      .ok [] :=
  ⟨by decide,
   C9_binary_blob_skipped [] binaryBlob [] sampleCommit (some sampleCommit)
     [] [] [] true true (by decide),
   rfl⟩

/-- C3: contrary to the claimed no-op, a branch with an empty commit
ancestry is fatal when it is the first branch — the terminal step
references the never-assigned loop variable `curr_commit` (line 348) and
the scan raises instead of proceeding; when an earlier branch did leave a
commit in `curr_commit`, the empty branch is also not a no-op: the stale
commit is re-diffed against the empty tree under the empty branch's turn
(second terminal trace entry).  This evaluates the model at the failing
inputs. -/
theorem C3_empty_branch_raises :
    find_strings [] emptyBranchRepo none 1000000 false false [] =
      .error "NameError: curr_commit referenced before assignment" ∧
    find_strings [] staleBranchRepo none 1000000 false false [] =
      .ok ⟨[], [("r".toList, none), ("r".toList, none)]⟩ := by
  exact ⟨rfl, by rfl⟩

theorem inLoopPairs_append (t1 t2 : List (Str × Option Str)) :
    inLoopPairs (t1 ++ t2) = inLoopPairs t1 ++ inLoopPairs t2 :=
  List.filterMap_append t1 t2 _

theorem inLoopPairs_pair (a b : Str) :
    inLoopPairs [(a, some b)] = [(a, b)] := rfl

theorem inLoopPairs_null (a : Str) :
    inLoopPairs [(a, none)] = [] := rfl

theorem nodup_append_singleton {p : Str × Str} {l : List (Str × Str)}
    (hl : l.Nodup) (hp : p ∉ l) : (l ++ [p]).Nodup := by
  rw [List.nodup_append]
  exact ⟨hl, List.nodup_singleton p, by simpa using hp⟩

theorem walkCommits_inv (regexes : List (Str × PyRegex)) (repo : RepoModel)
    (bn : Str) (since : Option Str) (custom : List (Str × PyRegex))
    (de dr : Bool) :
    ∀ (commits : List Commit) (prev : Option Commit) (reached : Bool)
      (st : WalkState) (res : Option Commit × WalkState),
      WalkInv st →
      walkCommits regexes repo bn since custom de dr commits prev reached
        st = .ok res →
      WalkInv res.2 := by
  intro commits
  induction commits with
  | nil =>
    intro prev reached st res hinv hok
    rw [walkCommits] at hok
    cases hok
    exact hinv
  | cons c rest ih =>
    intro prev reached st res hinv hok
    rw [walkCommits] at hok
    dsimp only at hok
    have hinv1 : WalkInv { st with currVar := some c } := by
      constructor
      · exact hinv.1
      · exact hinv.2
    split at hok <;> split at hok
    all_goals
      first
        | exact ih _ _ _ res hinv1 hok
        | (split at hok
           · exact ih _ _ _ res hinv1 hok
           · rename_i pc
             split at hok
             · exact ih _ _ _ res hinv1 hok
             · rename_i hnotmem
               split at hok
               · exact absurd hok (by simp)
               · rename_i foundIssues hfi
                 refine ih _ _ _ res ?_ hok
                 obtain ⟨hnd, hkeys⟩ := hinv
                 constructor
                 · simp only [inLoopPairs_append, inLoopPairs_pair]
                   refine nodup_append_singleton hnd ?_
                   intro hmem
                   have hkey := hkeys (pc.hexsha, c.hexsha) hmem
                   exact hnotmem (by simpa [strOptCommit] using hkey)
                 · intro p hp
                   simp only [inLoopPairs_append, inLoopPairs_pair,
                     List.mem_append, List.mem_singleton] at hp
                   rcases hp with hp | hp
                   · exact List.mem_cons_of_mem _ (hkeys p hp)
                   · subst hp
                     simp [strOptCommit])

theorem walkBranch_inv (regexes : List (Str × PyRegex)) (repo : RepoModel)
    (since : Option Str) (max_depth : Nat) (custom : List (Str × PyRegex))
    (de dr : Bool) (st : WalkState) (b : Str × List Commit)
    (st2 : WalkState) (hinv : WalkInv st)
    (hok : walkBranch regexes repo since max_depth custom de dr st b =
      .ok st2) :
    WalkInv st2 := by
  rw [walkBranch] at hok
  split at hok
  · exact absurd hok (by simp)
  · rename_i p st1 hwc
    have hinv1 : WalkInv st1 :=
      walkCommits_inv regexes repo b.1 since custom de dr _ none false st
        (p, st1) hinv hwc
    split at hok
    · exact absurd hok (by simp)
    · rename_i curr hcv
      split at hok
      · exact absurd hok (by simp)
      · rename_i foundIssues hfi
        cases hok
        obtain ⟨hnd, hkeys⟩ := hinv1
        constructor
        · simpa [inLoopPairs_append, inLoopPairs_null] using hnd
        · intro q hq
          simp only [inLoopPairs_append, inLoopPairs_null,
            List.append_nil] at hq
          exact hkeys q hq

theorem walkBranches_inv (regexes : List (Str × PyRegex)) (repo : RepoModel)
    (since : Option Str) (max_depth : Nat) (custom : List (Str × PyRegex))
    (de dr : Bool) :
    ∀ (bs : List (Str × List Commit)) (st : WalkState) (st2 : WalkState),
      WalkInv st →
      walkBranches regexes repo since max_depth custom de dr bs st =
        .ok st2 →
      WalkInv st2 := by
  intro bs
  induction bs with
  | nil =>
    intro st st2 hinv hok
    rw [walkBranches] at hok
    cases hok
    exact hinv
  | cons b bs ih =>
    intro st st2 hinv hok
    rw [walkBranches] at hok
    split at hok
    · exact absurd hok (by simp)
    · rename_i stmid hmid
      exact ih stmid st2
        (walkBranch_inv regexes repo since max_depth custom de dr st b
          stmid hinv hmid) hok

/-- C1 (amended): within one scan, every in-loop ordered commit pair —
previous against current — is diffed and run through the detectors at
most once across the entire traversal, whatever branches share ancestry;
the terminal empty-tree diff is excluded, because the code does not
deduplicate it (see the counterexample: a root commit shared by two
branches is diffed against the empty tree once per branch). -/
theorem C1_inloop_pairs_scanned_once (regexes : List (Str × PyRegex))
    (repo : RepoModel) (since : Option Str) (max_depth : Nat)
    (dr de : Bool) (custom : List (Str × PyRegex)) (out : ScanOutput)
    (hok : find_strings regexes repo since max_depth dr de custom =
      .ok out) :
    (inLoopPairs out.trace).Nodup := by
  rw [find_strings] at hok
  split at hok
  · exact absurd hok (by simp)
  · rename_i st hst
    cases hok
    have hinit : WalkInv ⟨[], [], none, []⟩ := by
      constructor
      · exact List.nodup_nil
      · intro p hp
        simp [inLoopPairs] at hp
    exact (walkBranches_inv regexes repo since max_depth custom de dr
      repo.branches _ st hinit hst).1

/-- C1 counterexample: with two branches sharing the same root commit, the
terminal pair (root, empty tree) is diffed once per branch — the trace
lists it twice, refuting at-most-once scanning for the terminal pair. -/
theorem C1_counterexample_terminal_pair_rescanned :
    find_strings [] sharedRootRepo none 1000000 false false [] =
      .ok ⟨[], [("r".toList, none), ("r".toList, none)]⟩ ∧
    ¬ ([(("r".toList : Str), (none : Option Str)),
        ("r".toList, none)].Nodup) := by
  constructor
  · rfl
  · decide

/-- Witness for C1 at a concrete input: a two-commit branch produces the
in-loop pair (newer, older) and the terminal pair, and the in-loop pairs
are scanned exactly once. -/
theorem C1_witness_inloop_pairs :
    (find_strings [] twoCommitRepo none 1000000 false false [] =
      .ok ⟨[], [("bb".toList, some "aa".toList), ("aa".toList, none)]⟩) ∧
    (inLoopPairs [("bb".toList, some "aa".toList),
      ("aa".toList, none)]).Nodup :=
  ⟨rfl,
   C1_inloop_pairs_scanned_once [] twoCommitRepo none 1000000 false false
     [] ⟨[], [("bb".toList, some "aa".toList), ("aa".toList, none)]⟩ rfl⟩

theorem gsos_word_nil (cs : Str) (hws : ∀ c ∈ cs, isPyWhitespace c = false)
    (pd : Str) (hnil : get_strings_of_set pd cs 20 = [])
    (line : Str) (hline : line ∈ splitOnChar '\n' pd)
    (word : Str) (hword : word ∈ pySplitWS line) :
    get_strings_of_set word cs 20 = [] := by
  rw [get_strings_of_set_eq_filter, List.eq_nil_iff_forall_not_mem]
  intro r hr
  have h1 := List.mem_of_mem_filter hr
  have h2 := List.of_mem_filter hr
  have hmem : r ∈ splitRuns cs pd := by
    rw [← splitRuns_lines_words cs hws pd]
    exact List.mem_flatMap.mpr
      ⟨line, hline, List.mem_flatMap.mpr ⟨word, hword, h1⟩⟩
  have hcontra : r ∈ get_strings_of_set pd cs 20 := by
    rw [get_strings_of_set_eq_filter]
    exact List.mem_filter.mpr ⟨hmem, h2⟩
  rw [hnil] at hcontra
  simp at hcontra

open scoped Classical in
theorem find_entropy_eq_none (pd ct bn : Str) (pc : Commit) (blob : Blob)
    (ch : Str)
    (hb : get_strings_of_set pd BASE64_CHARS 20 = [])
    (hh : get_strings_of_set pd HEX_CHARS 20 = []) :
    find_entropy pd ct bn pc blob ch = none := by
  have hfst : ((splitOnChar '\n' pd).foldl
      (fun st line => (pySplitWS line).foldl entropyScanWord st)
      ([], pd)).1 = [] := by
    rw [foldl_lines_fst]
    simp only [List.nil_append]
    rw [List.flatMap_eq_nil_iff]
    intro line hline
    rw [List.flatMap_eq_nil_iff]
    intro word hword
    rw [wordFlagged,
      gsos_word_nil BASE64_CHARS (by decide) pd hb line hline word hword,
      gsos_word_nil HEX_CHARS (by decide) pd hh line hline word hword]
    rfl
  simp only [find_entropy]
  rw [hfst]
  simp

open scoped Classical in
theorem diff_worker_single_match (regexes : List (Str × PyRegex))
    (curr pc : Commit) (bn ch : Str) (k m : Str) (rx : PyRegex)
    (blob : Blob) (do_entropy : Bool)
    (hnotbin : "Binary files".toList.isPrefixOf blob.diff = false)
    (hmatch : rx.findall blob.diff = [m])
    (hcleanB : get_strings_of_set blob.diff BASE64_CHARS 20 = [])
    (hcleanH : get_strings_of_set blob.diff HEX_CHARS 20 = []) :
    diff_worker regexes [blob] curr (some pc) bn ch [(k, rx)] do_entropy
        true =
      .ok [mkRegexFinding (formatTime pc.committed_date)
        (if truthyOptStr blob.b_path then blob.b_path else blob.a_path)
        bn pc blob.diff [m] k m] := by
  rw [diff_worker, diff_worker_go.eq_def]
  dsimp only
  rw [if_neg (by rw [hnotbin]; simp)]
  rw [find_entropy_eq_none blob.diff (formatTime pc.committed_date) bn pc
    blob ch hcleanB hcleanH]
  rw [regex_check_eq_map]
  simp only [List.isEmpty_cons, Bool.false_eq_true, if_false,
    List.flatMap_cons, List.flatMap_nil, List.append_nil, hmatch,
    List.map_cons, List.map_nil, Option.toList_none, ite_self,
    List.nil_append]
  rw [diff_worker_go.eq_def]
  simp

open scoped Classical in
theorem walkCommits_BAP (regexes : List (Str × PyRegex)) (bn : Str)
    (B A P : Commit) (dp : Commit → Commit → List Blob)
    (dn : Commit → List Blob) (k m : Str) (rx : PyRegex) (blobBA : Blob)
    (do_entropy : Bool)
    (hPB : P.hexsha ≠ B.hexsha) (hPA : P.hexsha ≠ A.hexsha)
    (hPne : P.hexsha ≠ [])
    (hdiffBA : dp B A = [blobBA])
    (hnotbin : "Binary files".toList.isPrefixOf blobBA.diff = false)
    (hmatch : rx.findall blobBA.diff = [m])
    (hcleanB : get_strings_of_set blobBA.diff BASE64_CHARS 20 = [])
    (hcleanH : get_strings_of_set blobBA.diff HEX_CHARS 20 = []) :
    walkCommits regexes ⟨[(bn, [B, A, P])], dp, dn⟩ bn (some P.hexsha)
        [(k, rx)] do_entropy true [B, A, P] none false ⟨[], [], none, []⟩ =
      .ok (some P,
        ⟨[B.hexsha ++ A.hexsha],
         [mkRegexFinding (formatTime B.committed_date)
            (if truthyOptStr blobBA.b_path then blobBA.b_path
              else blobBA.a_path) bn B blobBA.diff [m] k m],
         some P,
         [(B.hexsha, some A.hexsha)]⟩) := by
  have htr : truthyOptStr (some P.hexsha) = true := by
    rcases hcase : P.hexsha with _ | ⟨a, as⟩
    · exact absurd hcase hPne
    · simp [truthyOptStr, hcase]
  rw [walkCommits]
  dsimp only
  rw [if_neg (show ¬ ((some P.hexsha : Option Str) = some B.hexsha) by
    simp [hPB])]
  rw [if_neg (by simp)]
  rw [walkCommits]
  dsimp only
  rw [if_neg (show ¬ ((some P.hexsha : Option Str) = some A.hexsha) by
    simp [hPA])]
  rw [if_neg (by simp)]
  simp only [strOptCommit]
  rw [if_neg (show ¬ (B.hexsha ++ A.hexsha ∈ ([] : List Str)) by simp)]
  rw [hdiffBA,
    diff_worker_single_match regexes A B bn A.hexsha k m rx blobBA
      do_entropy hnotbin hmatch hcleanB hcleanH]
  dsimp only
  rw [walkCommits]
  dsimp only
  rw [if_pos rfl]
  rw [if_pos (by rw [htr]; exact ⟨rfl, rfl⟩)]
  rw [walkCommits]
  simp

open scoped Classical in
/-- C4: in a repository whose branch history is B (inserting a single
match of the one enabled pattern rule) on top of the clean commit A, with
since_commit set to the strictly earlier commit P, a scan with pattern
detection enabled yields exactly one Finding, whose commitHash is B's
identifier and whose commit field is B's message.  Cleanliness is stated
as: the (B,A) diff is one non-binary blob on which the rule finds exactly
one match and no over-20-character alphabet runs exist, and the terminal
diff of P against the empty tree is empty. -/
theorem C4_since_commit_single_finding (regexes : List (Str × PyRegex))
    (bn : Str) (B A P : Commit) (dp : Commit → Commit → List Blob)
    (dn : Commit → List Blob) (k m : Str) (rx : PyRegex) (blobBA : Blob)
    (do_entropy : Bool)
    (hPB : P.hexsha ≠ B.hexsha) (hPA : P.hexsha ≠ A.hexsha)
    (hPne : P.hexsha ≠ [])
    (hdiffBA : dp B A = [blobBA])
    (hnotbin : "Binary files".toList.isPrefixOf blobBA.diff = false)
    (hmatch : rx.findall blobBA.diff = [m])
    (hcleanB : get_strings_of_set blobBA.diff BASE64_CHARS 20 = [])
    (hcleanH : get_strings_of_set blobBA.diff HEX_CHARS 20 = [])
    (hterminal : dn P = []) :
    find_strings regexes ⟨[(bn, [B, A, P])], dp, dn⟩ (some P.hexsha)
        1000000 true do_entropy [(k, rx)] =
      .ok ⟨[mkRegexFinding (formatTime B.committed_date)
              (if truthyOptStr blobBA.b_path then blobBA.b_path
                else blobBA.a_path) bn B blobBA.diff [m] k m],
           [(B.hexsha, some A.hexsha), (P.hexsha, none)]⟩ ∧
    (mkRegexFinding (formatTime B.committed_date)
        (if truthyOptStr blobBA.b_path then blobBA.b_path
          else blobBA.a_path) bn B blobBA.diff [m] k m).commitHash =
      B.hexsha ∧
    (mkRegexFinding (formatTime B.committed_date)
        (if truthyOptStr blobBA.b_path then blobBA.b_path
          else blobBA.a_path) bn B blobBA.diff [m] k m).commit =
      B.message := by
  refine ⟨?_, rfl, rfl⟩
  rw [find_strings]
  dsimp only
  rw [walkBranches]
  rw [walkBranch]
  dsimp only
  have htake : ([B, A, P].take 1000000) = [B, A, P] := rfl
  rw [htake,
    walkCommits_BAP regexes bn B A P dp dn k m rx blobBA do_entropy hPB
      hPA hPne hdiffBA hnotbin hmatch hcleanB hcleanH]
  dsimp only
  rw [hterminal]
  have hdw0 : diff_worker regexes [] P (some P) bn P.hexsha [(k, rx)]
      do_entropy true = .ok [] := rfl
  rw [hdw0]
  dsimp only
  rw [walkBranches]
  simp

/-- Witness for C4 at a concrete input: with entropy on (the default) and
one pattern rule matching once in B's diff, the scan starting after the
since-commit reports exactly one Finding attributed to B. -/
theorem C4_witness_since_commit :
    find_strings [] ⟨[("origin/master".toList,
        [commitB4, commitA4, commitP4])], diffC4, fun _ => []⟩
        (some "pp".toList) 1000000 true true
        [("rule".toList, literalRegex 't' "ok".toList)] =
      .ok ⟨[mkRegexFinding (formatTime commitB4.committed_date)
              (if truthyOptStr blobC4.b_path then blobC4.b_path
                else blobC4.a_path) "origin/master".toList commitB4
              blobC4.diff ["tok".toList] "rule".toList "tok".toList],
           [(commitB4.hexsha, some commitA4.hexsha),
            (commitP4.hexsha, none)]⟩ :=
  (C4_since_commit_single_finding [] "origin/master".toList commitB4
    commitA4 commitP4 diffC4 (fun _ => []) "rule".toList "tok".toList
    (literalRegex 't' "ok".toList) blobC4 true (by decide) (by decide)
    (by decide) (by decide) (by decide) (by decide) (by decide)
    (by decide) rfl).1
